import Mathlib

/-!
Verification of the rubico container dispatch and execution engine
(`src/index.js` v1.5.6 core, with the v2.1.0 front-ends in `src/map.js` and
`src/filter.js`), as a shallow embedding in Lean 4.

Modelling conventions:
* A JavaScript value that "may or may not be a pending result" is modelled by
  `Poss`: `.now a` is an immediately available value, `.later a` is a promise
  that eventually resolves to `a`.  Promise rejection is not needed by the
  claims under study and is not modelled.
* JavaScript `undefined` is modelled by `Option`: `none` is `undefined`.
* JS `Set` is modelled as a duplicate-free insertion-ordered list, built with
  `setAdd` (the model of `Set.prototype.add`); JS plain objects are modelled
  as association lists with `Nat` keys (keys are abstract; JS objects have
  distinct keys).
* Promise continuations registered during one synchronous loop run only after
  the loop finishes; when several are outstanding, their resolution order is
  modelled as registration order (the claims under study do not depend on the
  actual order, and the pool mapper model additionally takes an explicit
  completion priority so that arbitrary completion orders are covered).
-/

/-- Model of a possibly-pending JavaScript value: `.now a` is a plain value,
`.later a` is a promise that resolves to `a`. -/
inductive Poss (α : Type) where
  | now (a : α)
  | later (a : α)
deriving DecidableEq

/-- Model of `isPromise(value)` from `src/index.js`. -/
def Poss.isPromise {α : Type} : Poss α → Bool
  | .now _ => false
  | .later _ => true

/-- The value a possibly-pending value holds once resolved. -/
def Poss.get {α : Type} : Poss α → α
  | .now a => a
  | .later a => a

/-- Model of `possiblePromiseThen(value, func)` from `src/index.js`:
`isPromise(value) ? value.then(func) : func(value)`.  A promise input always
yields a promise output (`.then` flattens a promise-returning continuation). -/
def possiblePromiseThen {γ δ : Type} (value : Poss γ) (func : γ → Poss δ) : Poss δ :=
  match value with
  | .now a => func a
  | .later a => .later (func a).get

/-- Result type of `possiblePromiseAll` from `src/index.js`.  The JS function
can in principle hand back the argument array itself (`.arr`), a `SyncThenable`
wrapper (`.syncThenable`), or a real promise of the resolved values
(`.promise`); the three are distinguishable to callers. -/
inductive PromiseAllResult (α : Type) where
  | arr (values : List (Poss α))
  | syncThenable (values : List (Poss α))
  | promise (resolved : List α)
deriving DecidableEq

/-- Model of `possiblePromiseAll(values)` from `src/index.js`:
`values.some(isPromise) ? promiseAll(values) : new SyncThenable(values)`. -/
def possiblePromiseAll {α : Type} (values : List (Poss α)) : PromiseAllResult α :=
  if values.any Poss.isPromise then .promise (values.map Poss.get)
  else .syncThenable values

/-- Model of `SyncThenable.prototype.then(func)` from `src/index.js`:
`return func(this.value)` -- the continuation is invoked immediately and its
result returned directly, with no scheduling deferment. -/
def syncThenableThen {α β : Type} (values : List (Poss α)) (func : List (Poss α) → β) : β :=
  func values

/-- Shape flags of a JavaScript value, as observed by the runtime predicates
used by the dispatch front-ends.  Each field is the result of the
corresponding predicate from `src/index.js` / the `src/_internal` helpers:
`isAsyncIterable`, `Array.isArray`, `isString`, `isSet`, `isMap`,
`ArrayBuffer.isView`, `isIterable` (has a `Symbol.iterator` function),
`isObject` (constructor is `Object`), `isFunction`, plus the extra probes used
by the v2 front-ends: `value == null`, generator-function tags,
`typeof value.next == 'function'`, `typeof value.map == 'function'`,
`typeof value.filter == 'function'`. -/
structure ValueShape where
  isNull : Bool
  isAsyncIterable : Bool
  isArray : Bool
  isString : Bool
  isSet : Bool
  isMap : Bool
  isTypedArray : Bool
  isIterable : Bool
  isObject : Bool
  isFunction : Bool
  isGeneratorFunction : Bool
  isAsyncGeneratorFunction : Bool
  hasNext : Bool
  hasMapMethod : Bool
  hasFilterMethod : Bool
deriving DecidableEq

/-- The per-shape implementation a front-end routes an operand to. -/
inductive Route where
  | asyncIterableR
  | arrayR
  | stringR
  | setR
  | mapR
  | typedArrayR
  | iterableR
  | objectR
  | reducerR
  | invalidR
  | generatorFunctionR
  | asyncGeneratorFunctionR
  | nullR
  | mappingIteratorR
  | mappingAsyncIteratorR
  | mapMethodR
  | fallbackMapperR
  | filteringIteratorR
  | filteringAsyncIteratorR
  | filterMethodR
  | passthroughR
deriving DecidableEq

/-- Dispatch of the returned unary function of `map` in `src/index.js`
(lines 763-779): the if-chain
`isAsyncIterable / isArray / isString / isSet / isMap / isTypedArray /
isIterable / isObject / isFunction`, else `throw TypeError`. -/
def mapDispatch (v : ValueShape) : Route :=
  if v.isAsyncIterable then .asyncIterableR
  else if v.isArray then .arrayR
  else if v.isString then .stringR
  else if v.isSet then .setR
  else if v.isMap then .mapR
  else if v.isTypedArray then .typedArrayR
  else if v.isIterable then .iterableR
  else if v.isObject then .objectR
  else if v.isFunction then .reducerR
  else .invalidR

/-- Dispatch of the returned unary function of `filter` in `src/index.js`
(lines 1093-1109), an if-chain with the same predicate order as `map`. -/
def filterDispatch (v : ValueShape) : Route :=
  if v.isAsyncIterable then .asyncIterableR
  else if v.isArray then .arrayR
  else if v.isString then .stringR
  else if v.isSet then .setR
  else if v.isMap then .mapR
  else if v.isTypedArray then .typedArrayR
  else if v.isIterable then .iterableR
  else if v.isObject then .objectR
  else if v.isFunction then .reducerR
  else .invalidR

/-- Modelled from the spec: the dispatch precedence order stated in §4.1,
"asynchronous-iterable capability > ordered sequence (array) > character
sequence (string) > unique-set > key-value map > fixed-width binary/numeric
sequence > synchronous-iterable capability > plain keyed-mapping object >
plain function (treated as reducer)", first match wins.  Used to compare the
source dispatchers against the spec's words. -/
def specPrecedenceDispatch (v : ValueShape) : Route :=
  if v.isAsyncIterable then .asyncIterableR
  else if v.isArray then .arrayR
  else if v.isString then .stringR
  else if v.isSet then .setR
  else if v.isMap then .mapR
  else if v.isTypedArray then .typedArrayR
  else if v.isIterable then .iterableR
  else if v.isObject then .objectR
  else if v.isFunction then .reducerR
  else .invalidR

/-- Dispatch of the `map` front-end in `src/map.js` (lines 144-179):
`isArray` first, then functions (generator / async-generator / reducer), then
`value == null`, then iterators probed via `typeof value.next == 'function'`
(with `Symbol.iterator in value` separating sync from async), then string,
`Set`, `Map`, plain object, a `.map` method, else the mapper is applied to
the value itself. -/
def mapJsDispatch (v : ValueShape) : Route :=
  if v.isArray then .arrayR
  else if v.isFunction then
    (if v.isGeneratorFunction then .generatorFunctionR
     else if v.isAsyncGeneratorFunction then .asyncGeneratorFunctionR
     else .reducerR)
  else if v.isNull then .nullR
  else if v.hasNext then
    (if v.isIterable then .mappingIteratorR else .mappingAsyncIteratorR)
  else if v.isString then .stringR
  else if v.isSet then .setR
  else if v.isMap then .mapR
  else if v.isObject then .objectR
  else if v.hasMapMethod then .mapMethodR
  else .fallbackMapperR

/-- Dispatch of the `filter` front-end in `src/filter.js` (lines 132-170):
like `src/map.js` but with a `.filter`-method probe before the plain-object
check, and an unrecognized operand is returned unchanged. -/
def filterJsDispatch (v : ValueShape) : Route :=
  if v.isArray then .arrayR
  else if v.isFunction then
    (if v.isGeneratorFunction then .generatorFunctionR
     else if v.isAsyncGeneratorFunction then .asyncGeneratorFunctionR
     else .reducerR)
  else if v.isNull then .nullR
  else if v.hasNext then
    (if v.isIterable then .filteringIteratorR else .filteringAsyncIteratorR)
  else if v.isString then .stringR
  else if v.isSet then .setR
  else if v.isMap then .mapR
  else if v.hasFilterMethod then .filterMethodR
  else if v.isObject then .objectR
  else .passthroughR

/-- The configuration-time error of `map` in `src/index.js`. -/
def mapConfigError : String := "map(f); f is not a function"

/-- The application-time invalid-operand error of `map` in `src/index.js`. -/
def mapOperandError : String := "map(...)(x); x invalid"

/-- The configuration-time error of `filter` in `src/index.js`. -/
def filterConfigError : String := "filter(predicate); predicate is not a function"

/-- The application-time invalid-operand error of `filter` in `src/index.js`. -/
def filterOperandError : String := "filter(...)(x); x invalid"

/-- The returned unary function of `map` in `src/index.js`, at the level of
routing: an unrecognized operand raises the invalid-operand `TypeError`. -/
def mapApply (v : ValueShape) : Except String Route :=
  match mapDispatch v with
  | .invalidR => .error mapOperandError
  | r => .ok r

/-- The `map` operator of `src/index.js` at configuration time: a non-function
mapper raises immediately, otherwise the unary dispatching function is
returned. -/
def mapFrontEnd (fIsFunction : Bool) : Except String (ValueShape → Except String Route) :=
  if fIsFunction then .ok mapApply else .error mapConfigError

/-- The returned unary function of `filter` in `src/index.js`, at the level of
routing: an unrecognized operand raises the invalid-operand `TypeError`. -/
def filterApply (v : ValueShape) : Except String Route :=
  match filterDispatch v with
  | .invalidR => .error filterOperandError
  | r => .ok r

/-- The `filter` operator of `src/index.js` at configuration time. -/
def filterFrontEnd (fIsFunction : Bool) : Except String (ValueShape → Except String Route) :=
  if fIsFunction then .ok filterApply else .error filterConfigError

/-- A plain object carrying a `Symbol.iterator` method and no `next` method,
e.g. `({ [Symbol.iterator]() { return [][Symbol.iterator]() } })`: it
satisfies both the synchronous-iterable capability and the plain-object
predicate (`constructor == Object`). -/
def customIterableObject : ValueShape :=
  ⟨false, false, false, false, false, false, false, true, true,
   false, false, false, false, false, false⟩

/-- A primitive number such as `42`: it satisfies none of the recognized shape
predicates and has no `next`, `map` or `filter` method. -/
def numberShape : ValueShape :=
  ⟨false, false, false, false, false, false, false, false, false,
   false, false, false, false, false, false⟩

/-- Model of `mapArray(f, x)` from `src/index.js` (lines 653-661): map the
array, flagging whether any mapper application returned a promise; if one did,
the result is `Promise.all` of the mapped array, else the mapped array
itself. -/
def mapArray {α β : Type} (f : α → Poss β) (x : List α) : Poss (List β) :=
  let y := x.map f
  if y.any Poss.isPromise then .later (y.map Poss.get) else .now (y.map Poss.get)

/-- Model of `Set.prototype.add` on the insertion-ordered list model of a JS
`Set`: appends unless the element is already present. -/
def setAdd {β : Type} [DecidableEq β] (s : List β) (b : β) : List β :=
  if b ∈ s then s else s ++ [b]

/-- Model of `mapSet(f, x)` from `src/index.js` (lines 701-712): one pass over
the set; synchronous mapper results are added immediately, promise results
register continuations that add their resolved value (run here in registration
order, after the loop); the result is a promise of the finished set iff at
least one application was a promise.  The accumulator pair is
`(y, pending resolved values)`. -/
def mapSet {α β : Type} [DecidableEq β] (f : α → Poss β) (x : List α) : Poss (List β) :=
  let st := x.foldl (fun (st : List β × List β) a =>
    match f a with
    | .now b => (setAdd st.1 b, st.2)
    | .later b => (st.1, st.2 ++ [b])) ([], [])
  if st.2.isEmpty then .now st.1 else .later (st.2.foldl setAdd st.1)

/-- Model of `mapObject(fn, x)` from `src/index.js` (lines 735-746): one pass
over the own enumerable entries; synchronous results are assigned to the same
key immediately, promise results register continuations assigning on
resolution (run here in registration order, after the loop); the result is a
promise of the finished object iff at least one application was a promise. -/
def mapObject {α β : Type} (f : α → Poss β) (x : List (Nat × α)) : Poss (List (Nat × β)) :=
  let st := x.foldl (fun (st : List (Nat × β) × List (Nat × β)) kv =>
    match f kv.2 with
    | .now b => (st.1 ++ [(kv.1, b)], st.2)
    | .later b => (st.1, st.2 ++ [(kv.1, b)])) ([], [])
  if st.2.isEmpty then .now st.1 else .later (st.1 ++ st.2)

/-- Property lookup on the association-list model of a JS object. -/
def flookup {β : Type} : List (Nat × β) → Nat → Option β
  | [], _ => none
  | kv :: rest, k => if kv.1 = k then some kv.2 else flookup rest k

/-- Model of `mapReducer(f, reducer)` from `src/index.js` (lines 753-754):
`(y, xi) => possiblePromiseThen(f(xi), res => reducer(y, res))`. -/
def mapReducer {α β σ : Type} (f : α → Poss β) (reducer : σ → β → Poss σ) :
    σ → α → Poss σ :=
  fun y xi => possiblePromiseThen (f xi) (fun res => reducer y res)

/-- Model of `filterReducer(predicate, reducer)` from `src/index.js` (lines
1083-1084): `(y, xi) => possiblePromiseThen(predicate(xi), res => res ?
reducer(y, xi) : y)`. -/
def filterReducer {α σ : Type} (predicate : α → Poss Bool) (reducer : σ → α → Poss σ) :
    σ → α → Poss σ :=
  fun y xi => possiblePromiseThen (predicate xi) (fun res => if res then reducer y xi else .now y)

/-- Left fold of a list with a possibly-asynchronous reducer, awaiting each
step before the next (the semantics of driving a reducer over an array, as
native `Array.prototype.reduce` does for the synchronous case under study). -/
def listFold {α σ : Type} (reducer : σ → α → Poss σ) : σ → List α → Poss σ
  | y0, [] => .now y0
  | y0, a :: as => possiblePromiseThen (reducer y0 a) (fun y1 => listFold reducer y1 as)

/-- Model of `createFilterIndex(predicate, x)` from `src/index.js` (lines
981-990): evaluate the predicate on every element, collecting the results; a
promise of the resolved index iff any evaluation was a promise. -/
def createFilterIndex {α : Type} (predicate : α → Poss Bool) (x : List α) : Poss (List Bool) :=
  let idx := x.map predicate
  if idx.any Poss.isPromise then .later (idx.map Poss.get) else .now (idx.map Poss.get)

/-- Model of `x.filter((_, i) => res[i])`: keep the elements at truthy
positions of the filter index. -/
def filterByIndex {α : Type} (x : List α) (res : List Bool) : List α :=
  ((x.zip res).filter (fun ab => ab.2)).map (fun ab => ab.1)

/-- Model of `filterArray(predicate, x)` from `src/index.js` (lines 997-1000):
two passes, `possiblePromiseThen(createFilterIndex(predicate, x), res =>
x.filter((_, i) => res[i]))`. -/
def filterArray {α : Type} (predicate : α → Poss Bool) (x : List α) : Poss (List α) :=
  possiblePromiseThen (createFilterIndex predicate x) (fun res => .now (filterByIndex x res))

/-- Model of pulling every element of the lazy generator returned by
`filterIterable(predicate, x)` from `src/index.js` (lines 962-974): walk the
source; a promise-valued predicate result raises the misuse `TypeError` at
that pull (second component `true`), a truthy synchronous result yields the
element, a falsy one skips it.  The first component is the list of values
yielded before termination or error. -/
def runFilterIterable {α : Type} (predicate : α → Poss Bool) : List α → List α × Bool
  | [] => ([], false)
  | a :: as =>
    match predicate a with
    | .later _ => ([], true)
    | .now ok =>
      if ok then
        ((runFilterIterable predicate as).1.cons a, (runFilterIterable predicate as).2)
      else runFilterIterable predicate as

/-- The empty-reduction error of `src/index.js`. -/
def emptyReduceError : String := "reduce(...)(x); x cannot be empty"

/-- Model of `asyncReduceIterator(f, x0, iter)` from `src/index.js` (lines
1168-1174): fold the rest of the iterator, awaiting every reducer
application. -/
def asyncReduceIterator {α : Type} (fn : Option α → Option α → Poss (Option α))
    (y0 : Option α) (iter : List (Option α)) : Option α :=
  iter.foldl (fun y xi => (fn y xi).get) y0

/-- The fold loop of `reduceIterable` from `src/index.js` (lines 1191-1203):
reduce synchronously until a reducer application returns a promise, then the
whole remainder is folded inside that promise. -/
def reduceGo {α : Type} (fn : Option α → Option α → Poss (Option α)) :
    Option α → List (Option α) → Poss (Option α)
  | y, [] => .now y
  | y, xi :: rest =>
    match fn y xi with
    | .now y1 => reduceGo fn y1 rest
    | .later y1 => .later (asyncReduceIterator fn y1 rest)

/-- Model of `reduceIterable(fn, possiblyX0, x)` from `src/index.js` (lines
1185-1204).  Elements are JS values that may themselves be `undefined`
(`none`).  When no initial accumulator is supplied (`possiblyX0 = none`,
JS `undefined`), the head of the iterator seeds the accumulator and folding
starts at the second element.  The seeded accumulator is then tested for
`undefined` -- not the iterator's `done` flag -- and the `TypeError` is thrown
when it is `undefined`. -/
def reduceIterable {α : Type} (fn : Option α → Option α → Poss (Option α))
    (possiblyX0 : Option α) (x : List (Option α)) : Except String (Poss (Option α)) :=
  let seed : Option α × List (Option α) :=
    if possiblyX0.isSome then (possiblyX0, x) else (x.head?.join, x.tail)
  match seed.1 with
  | none => .error emptyReduceError
  | some y0 => .ok (reduceGo fn (some y0) seed.2)

/-- The initial-value argument of `reduce` in `src/index.js`: either a plain
(possibly pending, possibly `undefined`) value, or an initializer function of
the container (`isFunction(init)`). -/
inductive ReduceInit (α : Type) where
  | ival (v : Poss (Option α))
  | ifn (g : List (Option α) → Poss (Option α))

/-- Model of `reduce(fn, init)` from `src/index.js` (lines 1249-1278) on the
iterable (list) path: compute `x0` (calling `init` when it is a function),
then `possiblePromiseThen(x0, res => reduceIterable(fn, res, x))`.
`Except.error` covers both a synchronous throw and a rejected promise. -/
def reduce {α : Type} (fn : Option α → Option α → Poss (Option α))
    (init : ReduceInit α) (x : List (Option α)) : Except String (Poss (Option α)) :=
  let x0 : Poss (Option α) :=
    match init with
    | .ifn g => g x
    | .ival v => v
  match x0 with
  | .now res => reduceIterable fn res x
  | .later res =>
    match reduceIterable fn res x with
    | .error e => .error e
    | .ok r => .ok (.later r.get)

/-- The outcome of one mapper application in the pool-mapper model: a
synchronous value, or a promise of `b` whose completion priority among all
outstanding promises is `pri` (lower priority completes earlier; the priority
is arbitrary, so every completion order is covered). -/
inductive PoolApp (β : Type) where
  | sync (b : β)
  | async (b : β) (pri : Nat)
deriving DecidableEq

/-- The value a pool mapper application eventually produces. -/
def PoolApp.val {β : Type} : PoolApp β → β
  | .sync b => b
  | .async b _ => b

/-- Whether a pool mapper application is asynchronous. -/
def PoolApp.isAsync {β : Type} : PoolApp β → Bool
  | .sync _ => false
  | .async _ _ => true

/-- State of the `mapPoolArray` loop of `src/index.js` (lines 819-839):
`inflight` is the `promises` set (entries `(slot, priority, value)`),
`finished` records each slot's resolved value, `sizes` records
`promises.size` at the start of each scheduling decision (top of each loop
iteration), and `removals` records, in order, the slot of each promise removed
from the set by its own resolution continuation. -/
structure PoolState (β : Type) where
  inflight : List (Nat × Nat × β)
  finished : List (Nat × β)
  sizes : List Nat
  removals : List Nat
deriving DecidableEq

/-- The empty initial pool state. -/
def initPoolState {β : Type} : PoolState β := ⟨[], [], [], []⟩

/-- Completion order on in-flight entries: priority first, slot as an
arbitrary tie-break. -/
def poolKeyLe (a b : Nat × Nat) : Bool :=
  decide (a.1 < b.1 ∨ (a.1 = b.1 ∧ a.2 ≤ b.2))

/-- Select the first-to-complete in-flight entry, returning it and the
remaining entries. -/
def pickMin {β : Type} : List (Nat × Nat × β) →
    Option ((Nat × Nat × β) × List (Nat × Nat × β))
  | [] => none
  | e :: es =>
    match pickMin es with
    | none => some (e, [])
    | some (m, rest) =>
      if poolKeyLe (e.2.1, e.1) (m.2.1, m.1) then some (e, es) else some (m, e :: rest)

/-- Model of one `await Promise.race(promises)`: the first-to-complete
outstanding promise resolves; its continuation deletes it from the set and its
resolved value is recorded for its slot. -/
def race {β : Type} (st : PoolState β) : PoolState β :=
  match pickMin st.inflight with
  | none => st
  | some (m, rest) =>
    ⟨rest, st.finished ++ [(m.1, m.2.2)], st.sizes, st.removals ++ [m.1]⟩

/-- The main loop of `mapPoolArray(size, f, x)` from `src/index.js` (lines
819-839): for each element, record `promises.size` (the scheduling decision),
suspend on `Promise.race(promises)` when `promises.size >= size`, then apply
the mapper: synchronous results are recorded directly, promise results enter
the in-flight set (removed by their own resolution continuation).  `i` is the
slot (input position) of the next element.  `poolStep` is the scheduling
decision at the top of one iteration: record `promises.size`, then suspend on
the race when `promises.size >= size`. -/
def poolStep {β : Type} (n : Nat) (st : PoolState β) : PoolState β :=
  let st1 : PoolState β := ⟨st.inflight, st.finished, st.sizes ++ [st.inflight.length], st.removals⟩
  if n ≤ st1.inflight.length then race st1 else st1

/-- The `mapPoolArray` loop itself: one `poolStep` scheduling decision, then
one mapper application, per element. -/
def poolGo {α β : Type} (n : Nat) (f : α → PoolApp β) :
    List α → Nat → PoolState β → PoolState β
  | [], _, st => st
  | a :: as, i, st =>
    let st2 : PoolState β := poolStep n st
    match f a with
    | .sync b => poolGo n f as (i + 1) ⟨st2.inflight, st2.finished ++ [(i, b)], st2.sizes, st2.removals⟩
    | .async b p => poolGo n f as (i + 1) ⟨st2.inflight ++ [(i, p, b)], st2.finished, st2.sizes, st2.removals⟩

/-- Model of the final `Promise.all(y)`: await the remaining outstanding
promises, each resolving (and deleting itself) in completion order. -/
def drainN {β : Type} : Nat → PoolState β → PoolState β
  | 0, st => st
  | k + 1, st => drainN k (race st)

/-- The full run of `mapPoolArray(size, f, x)`: the loop over all elements
followed by awaiting every remaining outstanding promise. -/
def mapPoolRun {α β : Type} (n : Nat) (f : α → PoolApp β) (x : List α) : PoolState β :=
  let st := poolGo n f x 0 initPoolState
  drainN st.inflight.length st

/-- The resolved output array of `mapPoolArray(size, f, x)`: slot `i` of the
output is the value recorded for input position `i` (the output entry pushed
for position `i` is either the synchronous result or the promise that resolves
to that position's result, so `Promise.all` ties slots to input positions). -/
def mapPoolArray {α β : Type} (n : Nat) (f : α → PoolApp β) (x : List α) : List (Option β) :=
  let st := mapPoolRun n f x
  (List.range x.length).map (fun i => flookup st.finished i)

/-- The input positions at which the mapper application is asynchronous. -/
def asyncIds {α β : Type} (f : α → PoolApp β) (x : List α) : List Nat :=
  ((x.enum).filter (fun ia => (f ia.2).isAsync)).map Prod.fst

/-- The input positions at which the mapper application is asynchronous,
starting the position count at `i` (the tail form of `asyncIds` used while
reasoning about the loop). -/
def asyncIdsFrom {α β : Type} (f : α → PoolApp β) (i : Nat) (as : List α) : List Nat :=
  ((List.enumFrom i as).filter (fun ia => (f ia.2).isAsync)).map Prod.fst

/-- Concrete pool mapper used by the pool witnesses: even inputs are
synchronous, odd inputs are promises completing in reverse submission
order. -/
def poolWitnessMapper : Nat → PoolApp Nat :=
  fun k => if k % 2 == 1 then PoolApp.async (k * 10) (10 - k) else PoolApp.sync (k * 10)

/-- Concrete mapper used by the duality witness: input `1` maps to a promise,
all other inputs map synchronously. -/
def dualityWitnessMapper : Nat → Poss Nat :=
  fun n => if n == 1 then Poss.later (n + 10) else Poss.now (n + 10)

/-- Concrete object used by the duality witness. -/
def dualityWitnessObject : List (Nat × Nat) := [(3, 0), (7, 1)]

/-- Concrete predicate used by the filter-iterable witness: pending on `3`,
otherwise odd. -/
def filterIterWitnessPredicate : Nat → Poss Bool :=
  fun k => if k == 3 then Poss.later true else Poss.now (k % 2 == 1)

/-- A plain JS array such as `[1, 2, 3]`: `Array.isArray` holds, and arrays
also carry the synchronous-iterable capability. -/
def plainArrayShape : ValueShape :=
  ⟨false, false, true, false, false, false, false, true, false,
   false, false, false, false, true, true⟩

/-! ## Theorems -/

/-- C8 (counterexample): with no pending element, `possiblePromiseAll` does
not return the ordered sequence itself: it wraps it in a `SyncThenable`
object, which is a thenable (`isPromise` is true of it in JS, since it has a
`.then` function). -/
theorem possiblePromiseAllWrapsCounterexample :
    possiblePromiseAll [Poss.now (1 : Nat)] = PromiseAllResult.syncThenable [Poss.now 1]
    ∧ possiblePromiseAll [Poss.now (1 : Nat)] ≠ PromiseAllResult.arr [Poss.now 1] := by
  exact ⟨rfl, by decide⟩

/-- C8 (amended): with no pending element, `possiblePromiseAll` returns a
synchronous thenable wrapping the ordered sequence, whose `then` invokes the
continuation immediately on the sequence with no scheduling deferment; with at
least one pending element it returns a single pending result of the ordered
sequence of resolved values. -/
theorem possiblePromiseAllSpec {α : Type} (values : List (Poss α)) :
    (values.any Poss.isPromise = false →
      possiblePromiseAll values = PromiseAllResult.syncThenable values)
    ∧ (values.any Poss.isPromise = true →
      possiblePromiseAll values = PromiseAllResult.promise (values.map Poss.get))
    ∧ ∀ (func : List (Poss α) → Poss α), syncThenableThen values func = func values := by
  refine ⟨fun h => ?_, fun h => ?_, fun _ => rfl⟩ <;> simp [possiblePromiseAll, h]

/-- Witness for `possiblePromiseAllSpec` at concrete inputs. -/
theorem possiblePromiseAllSpecWitness :
    possiblePromiseAll [Poss.now (2 : Nat)] = PromiseAllResult.syncThenable [Poss.now 2]
    ∧ possiblePromiseAll [Poss.later (2 : Nat)] = PromiseAllResult.promise [2] := by
  exact ⟨(possiblePromiseAllSpec [Poss.now 2]).1 (by decide),
    (possiblePromiseAllSpec [Poss.later 2]).2.1 (by decide)⟩

/-- C1 (counterexample): the `src/map.js` front-end does not follow the
claimed fixed precedence order.  A plain object with a `Symbol.iterator`
method (a custom synchronous iterable) must, per the claimed order, be routed
to the synchronous-iterable implementation (sync-iterable precedes plain
object), and `src/index.js` does route it there; `src/map.js` routes it to
the plain-object implementation instead. -/
theorem mapJsDispatchPrecedenceCounterexample :
    specPrecedenceDispatch customIterableObject = Route.iterableR
    ∧ mapDispatch customIterableObject = Route.iterableR
    ∧ mapJsDispatch customIterableObject = Route.objectR
    ∧ filterJsDispatch customIterableObject = Route.objectR
    ∧ Route.objectR ≠ Route.iterableR
    ∧ Route.objectR ≠ Route.mappingIteratorR := by decide

/-- C1 (amended): the `src/index.js` `map` and `filter` front-ends select the
per-shape implementation by first match in the spec's precedence order
(async-iterable, array, string, Set, Map, typed array, sync-iterable, plain
object, function-as-reducer); and in all four front-ends an array operand is
never routed to the generic-iterable path (the v2 front-ends check the array
shape first). -/
theorem dispatchPrecedenceIndexJs (v : ValueShape) :
    mapDispatch v = specPrecedenceDispatch v
    ∧ filterDispatch v = specPrecedenceDispatch v
    ∧ (v.isArray = true →
        mapDispatch v ≠ Route.iterableR ∧ filterDispatch v ≠ Route.iterableR
        ∧ mapJsDispatch v = Route.arrayR ∧ filterJsDispatch v = Route.arrayR) := by
  refine ⟨rfl, rfl, fun h => ⟨?_, ?_, ?_, ?_⟩⟩ <;>
    simp only [mapDispatch, filterDispatch, mapJsDispatch, filterJsDispatch, h, if_true] <;>
    split <;> simp

/-- Witness for `dispatchPrecedenceIndexJs` at a plain array shape. -/
theorem dispatchPrecedenceIndexJsWitness :
    mapDispatch plainArrayShape ≠ Route.iterableR
    ∧ filterDispatch plainArrayShape ≠ Route.iterableR
    ∧ mapJsDispatch plainArrayShape = Route.arrayR
    ∧ filterJsDispatch plainArrayShape = Route.arrayR := by
  exact (dispatchPrecedenceIndexJs plainArrayShape).2.2 (by decide)

/-- C9 (counterexample): for an operand matching none of the recognized
shapes (e.g. the number `42`), the `src/map.js` front-end does not fail: it
applies the mapper to the value directly, and the `src/filter.js` front-end
returns the value unchanged; only `src/index.js` raises the invalid-operand
error. -/
theorem mapJsNoInvalidOperandError :
    mapJsDispatch numberShape = Route.fallbackMapperR
    ∧ filterJsDispatch numberShape = Route.passthroughR
    ∧ Route.fallbackMapperR ≠ Route.invalidR
    ∧ Route.passthroughR ≠ Route.invalidR := by decide

/-- C9 (amended): for every operand matching none of the recognized shapes
(and without `next`/`map`/`filter` methods and non-null), the `src/index.js`
front-ends fail at application time with the invalid-operand `TypeError`,
distinct from the configuration errors (configuration itself succeeded);
the `src/map.js` front-end instead applies the mapper to the value and the
`src/filter.js` front-end returns the value unchanged. -/
theorem invalidOperandBehavior (v : ValueShape)
    (h1 : v.isAsyncIterable = false) (h2 : v.isArray = false) (h3 : v.isString = false)
    (h4 : v.isSet = false) (h5 : v.isMap = false) (h6 : v.isTypedArray = false)
    (h7 : v.isIterable = false) (h8 : v.isObject = false) (h9 : v.isFunction = false)
    (hnull : v.isNull = false) (hnext : v.hasNext = false)
    (hmm : v.hasMapMethod = false) (hfm : v.hasFilterMethod = false) :
    mapFrontEnd true = Except.ok mapApply
    ∧ mapApply v = Except.error mapOperandError
    ∧ filterFrontEnd true = Except.ok filterApply
    ∧ filterApply v = Except.error filterOperandError
    ∧ mapOperandError ≠ mapConfigError
    ∧ filterOperandError ≠ filterConfigError
    ∧ mapJsDispatch v = Route.fallbackMapperR
    ∧ filterJsDispatch v = Route.passthroughR := by
  refine ⟨rfl, ?_, rfl, ?_, by decide, by decide, ?_, ?_⟩ <;>
    simp [mapApply, filterApply, mapDispatch, filterDispatch, mapJsDispatch, filterJsDispatch,
      h1, h2, h3, h4, h5, h6, h7, h8, h9, hnull, hnext, hmm, hfm]

/-- Witness for `invalidOperandBehavior` at the number shape. -/
theorem invalidOperandBehaviorWitness :
    mapApply numberShape = Except.error mapOperandError
    ∧ filterApply numberShape = Except.error filterOperandError := by
  have h := invalidOperandBehavior numberShape rfl rfl rfl rfl rfl rfl rfl rfl rfl rfl rfl rfl rfl
  exact ⟨h.2.1, h.2.2.2.1⟩

/-- C3 (counterexample): `Promise.resolve(undefined)` is an initial value
that is neither a function nor `undefined`, yet
`reduce(f, Promise.resolve(undefined))([])` fails with the empty-reduction
error (as a rejected promise) instead of succeeding with the initial value. -/
theorem reducePendingUndefinedInitialCounterexample :
    reduce (fun y _ => Poss.now y) (ReduceInit.ival (Poss.later none)) ([] : List (Option Nat))
      = Except.error emptyReduceError := by
  rfl

/-- C3 (amended): `reduce(f)` on an empty list with no initial value fails
with the empty-reduction error; for every non-pending initial value `v` that
is not a function and not `undefined`, `reduce(f, v)([])` succeeds and
returns `v` unchanged; a pending initial value resolving to a defined `v`
yields a pending result of `v` (and, per the counterexample, one resolving to
`undefined` fails with the empty-reduction error). -/
theorem reduceEmptyListBehavior {α : Type} (fn : Option α → Option α → Poss (Option α)) (v : α) :
    reduce fn (ReduceInit.ival (Poss.now none)) ([] : List (Option α))
      = Except.error emptyReduceError
    ∧ reduce fn (ReduceInit.ival (Poss.now (some v))) [] = Except.ok (Poss.now (some v))
    ∧ reduce fn (ReduceInit.ival (Poss.later (some v))) [] = Except.ok (Poss.later (some v)) := by
  exact ⟨rfl, rfl, rfl⟩

/-- C10: reducing a non-empty container whose first element is `undefined`
with no initial value throws the same cannot-be-empty error as reducing an
empty container, because `reduceIterable` tests the seeded accumulator for
`undefined` rather than testing the iterator's `done` flag. -/
theorem reduceUndefinedFirstElement {α : Type} (fn : Option α → Option α → Poss (Option α))
    (rest : List (Option α)) :
    reduce fn (ReduceInit.ival (Poss.now none)) (none :: rest) = Except.error emptyReduceError
    ∧ reduce fn (ReduceInit.ival (Poss.now none)) (none :: rest)
      = reduce fn (ReduceInit.ival (Poss.now none)) ([] : List (Option α)) := by
  exact ⟨rfl, rfl⟩

/-- C7: filtering a purely synchronous iterable with a predicate that returns
a pending result on some element is a fatal error raised at the pull that
reaches the offending element: every element before it with a truthy
synchronous predicate result is yielded normally, and the error surfaces only
then (creating the filtered generator itself evaluates nothing). -/
theorem filterIterableLazyAsyncMisuse {α : Type} (predicate : α → Poss Bool)
    (pre : List α) (b : α) (rest : List α)
    (hpre : ∀ a ∈ pre, (predicate a).isPromise = false)
    (hb : (predicate b).isPromise = true) :
    runFilterIterable predicate (pre ++ b :: rest)
      = (pre.filter (fun a => (predicate a).get), true) := by
  induction pre with
  | nil =>
    cases hpb : predicate b with
    | now ok => rw [hpb] at hb; simp [Poss.isPromise] at hb
    | later ok => simp [runFilterIterable, hpb]
  | cons a as ih =>
    have ha : (predicate a).isPromise = false := hpre a (List.mem_cons_self a as)
    have has : ∀ c ∈ as, (predicate c).isPromise = false :=
      fun c hc => hpre c (List.mem_cons_of_mem a hc)
    cases hpa : predicate a with
    | later ok => rw [hpa] at ha; simp [Poss.isPromise] at ha
    | now ok =>
      cases hok : ok <;>
        simp [runFilterIterable, hpa, List.filter_cons, hok, Poss.get, ih has]

/-- Witness for `filterIterableLazyAsyncMisuse` at a concrete run. -/
theorem filterIterableLazyAsyncMisuseWitness :
    runFilterIterable filterIterWitnessPredicate ([1, 2] ++ 3 :: [4, 5])
      = ([1, 2].filter (fun a => (filterIterWitnessPredicate a).get), true) := by
  exact filterIterableLazyAsyncMisuse filterIterWitnessPredicate [1, 2] 3 [4, 5]
    (by decide) (by decide)

/-- Folding any list through the reducer `filter(p)(map(f)(r))` built from
synchronous `f`, `p`, `r` equals folding `r` over the filtered-then-mapped
list (the general transducer fusion fact behind C6). -/
theorem listFoldComposedSync {α β σ : Type} (f : α → β) (p : α → Bool) (r : σ → β → σ) :
    ∀ (l : List α) (y0 : σ),
    listFold (filterReducer (fun a => Poss.now (p a))
        (mapReducer (fun a => Poss.now (f a)) (fun y b => Poss.now (r y b)))) y0 l
      = Poss.now (List.foldl r y0 ((l.filter p).map f)) := by
  intro l
  induction l with
  | nil => intro y0; rfl
  | cons a as ih =>
    intro y0
    cases hp : p a <;>
      simp [listFold, filterReducer, mapReducer, possiblePromiseThen, hp, ih,
        List.filter_cons]

/-- With a synchronous predicate, the per-element filter index contains no
promise. -/
theorem createFilterIndexSync {α : Type} (p : α → Bool) (l : List α) :
    createFilterIndex (fun a => Poss.now (p a)) l = Poss.now (l.map p) := by
  have hany : (l.map (fun a => Poss.now (p a))).any Poss.isPromise = false := by
    induction l with
    | nil => rfl
    | cons a as ih => simp [List.any_cons, Poss.isPromise, ih]
  simp [createFilterIndex, hany, List.map_map, Function.comp, Poss.get]

/-- Keeping the elements of `l` at the truthy positions of `l.map p` is
filtering `l` by `p`. -/
theorem filterByIndexMapSelf {α : Type} (p : α → Bool) :
    ∀ (l : List α), filterByIndex l (l.map p) = l.filter p := by
  intro l
  induction l with
  | nil => rfl
  | cons a as ih =>
    cases hp : p a <;> simp [filterByIndex, List.filter_cons, hp] <;>
      simpa [filterByIndex] using ih

/-- With a synchronous predicate, `filterArray` returns the filtered array
immediately. -/
theorem filterArraySync {α : Type} (p : α → Bool) (l : List α) :
    filterArray (fun a => Poss.now (p a)) l = Poss.now (l.filter p) := by
  simp [filterArray, createFilterIndexSync, possiblePromiseThen, filterByIndexMapSelf]

/-- With a synchronous mapper, `mapArray` returns the mapped array
immediately. -/
theorem mapArraySync {α β : Type} (f : α → β) (l : List α) :
    mapArray (fun a => Poss.now (f a)) l = Poss.now (l.map f) := by
  have hany : (l.map (fun a => Poss.now (f a))).any Poss.isPromise = false := by
    induction l with
    | nil => rfl
    | cons a as ih => simp [List.any_cons, Poss.isPromise, ih]
  simp [mapArray, hany, List.map_map, Function.comp, Poss.get]

/-- C6 (amended): for every synchronous pure mapper `f`, predicate `p` and
reducer `r`, folding `[1,2,3,4,5]` with the composed reducer
`filter(p)(map(f)(r))` and initial value `y0` yields the same result as
folding `r` with `y0` over the container-level composition
`map(f)(filter(p)([1,2,3,4,5]))`; and the composed reducer applies the
predicate to the raw element, skips delegation when the predicate is falsy,
and otherwise delegates to `r` with the mapped element. -/
theorem transducerFoldEquivalence {β σ : Type} (f : Nat → β) (p : Nat → Bool)
    (r : σ → β → σ) (y0 : σ) :
    listFold (filterReducer (fun a => Poss.now (p a))
        (mapReducer (fun a => Poss.now (f a)) (fun y b => Poss.now (r y b)))) y0 [1, 2, 3, 4, 5]
      = Poss.now (List.foldl r y0
          ((mapArray (fun a => Poss.now (f a))
            ((filterArray (fun a => Poss.now (p a)) [1, 2, 3, 4, 5]).get)).get))
    ∧ ∀ (y : σ) (a : Nat),
      filterReducer (fun a2 => Poss.now (p a2))
          (mapReducer (fun a2 => Poss.now (f a2)) (fun y2 b => Poss.now (r y2 b))) y a
        = Poss.now (if p a then r y (f a) else y) := by
  constructor
  · rw [filterArraySync, listFoldComposedSync]
    simp [mapArraySync, Poss.get]
  · intro y a
    cases hp : p a <;>
      simp [filterReducer, mapReducer, possiblePromiseThen, hp]

/-- C6 (counterexample): with the reducer `r = (y, _) => y`, the identity
mapper and an always-true predicate, folding `[1,2,3,4,5]` through
`filter(p)(map(f)(r))` with initial value `[]` yields `[]`, which differs
from the container-level composition `map(f)(filter(p)([1,2,3,4,5])) =
[1,2,3,4,5]`; so the claim's equation fails for arbitrary reducers `r`. -/
theorem transducerFoldCounterexample :
    listFold (filterReducer (fun _ : Nat => Poss.now true)
        (mapReducer (fun a : Nat => Poss.now a) (fun (y : List Nat) (_ : Nat) => Poss.now y)))
      ([] : List Nat) [1, 2, 3, 4, 5]
      ≠ mapArray (fun a : Nat => Poss.now a)
          ((filterArray (fun _ : Nat => Poss.now true) [1, 2, 3, 4, 5]).get) := by
  decide

/-- Characterization of the `mapSet` loop: the synchronous component adds
the synchronous results in iteration order, the pending component collects
the promise results in registration order. -/
theorem mapSetFoldChar {α β : Type} [DecidableEq β] (f : α → Poss β) :
    ∀ (x : List α) (s1 s2 : List β),
    x.foldl (fun (st : List β × List β) a =>
      match f a with
      | .now b => (setAdd st.1 b, st.2)
      | .later b => (st.1, st.2 ++ [b])) (s1, s2)
    = (((x.filter (fun a => !(f a).isPromise)).map (fun a => (f a).get)).foldl setAdd s1,
       s2 ++ (x.filter (fun a => (f a).isPromise)).map (fun a => (f a).get)) := by
  intro x
  induction x with
  | nil => intro s1 s2; simp
  | cons a as ih =>
    intro s1 s2
    cases hfa : f a with
    | now b =>
      simp [List.foldl_cons, hfa, List.filter_cons, Poss.isPromise, Poss.get, ih]
    | later b =>
      simp [List.foldl_cons, hfa, List.filter_cons, Poss.isPromise, Poss.get, ih]

/-- Membership in `setAdd`. -/
theorem memSetAdd {β : Type} [DecidableEq β] (s : List β) (b c : β) :
    c ∈ setAdd s b ↔ c ∈ s ∨ c = b := by
  unfold setAdd
  split
  · rename_i hb
    constructor
    · exact fun h => Or.inl h
    · rintro (h | h)
      · exact h
      · exact h ▸ hb
  · simp

/-- Membership in a fold of `setAdd`. -/
theorem memFoldlSetAdd {β : Type} [DecidableEq β] :
    ∀ (l : List β) (s : List β) (c : β), c ∈ l.foldl setAdd s ↔ c ∈ s ∨ c ∈ l := by
  intro l
  induction l with
  | nil => intro s c; simp
  | cons b bs ih =>
    intro s c
    rw [List.foldl_cons, ih, memSetAdd]
    simp [List.mem_cons, or_assoc]

/-- Characterization of the `mapObject` loop: synchronous results are
assigned in iteration order, promise results in registration order after the
loop. -/
theorem mapObjectFoldChar {α β : Type} (f : α → Poss β) :
    ∀ (x : List (Nat × α)) (s1 s2 : List (Nat × β)),
    x.foldl (fun (st : List (Nat × β) × List (Nat × β)) kv =>
      match f kv.2 with
      | .now b => (st.1 ++ [(kv.1, b)], st.2)
      | .later b => (st.1, st.2 ++ [(kv.1, b)])) (s1, s2)
    = (s1 ++ (x.filter (fun kv => !(f kv.2).isPromise)).map (fun kv => (kv.1, (f kv.2).get)),
       s2 ++ (x.filter (fun kv => (f kv.2).isPromise)).map (fun kv => (kv.1, (f kv.2).get))) := by
  intro x
  induction x with
  | nil => intro s1 s2; simp
  | cons kv kvs ih =>
    intro s1 s2
    cases hf : f kv.2 with
    | now b =>
      simp [List.foldl_cons, hf, List.filter_cons, Poss.isPromise, Poss.get, ih]
    | later b =>
      simp [List.foldl_cons, hf, List.filter_cons, Poss.isPromise, Poss.get, ih]

/-- Lookup of a present key in an association list with duplicate-free
keys. -/
theorem flookupMemNodup {β : Type} :
    ∀ (l : List (Nat × β)) (k : Nat) (b : β),
    (l.map Prod.fst).Nodup → (k, b) ∈ l → flookup l k = some b := by
  intro l
  induction l with
  | nil => intro k b _ h; simp at h
  | cons kv rest ih =>
    intro k b hnd hmem
    rw [List.map_cons, List.nodup_cons] at hnd
    rcases List.mem_cons.mp hmem with h | h
    · rw [← h]
      simp [flookup]
    · have hne : kv.1 ≠ k := by
        intro he
        exact hnd.1 (he ▸ List.mem_map.mpr ⟨(k, b), h, rfl⟩)
      simp [flookup, hne, ih k b hnd.2 h]

/-- `any isPromise` over a mapped list, in terms of the original list. -/
theorem anyMapIsPromise {α β : Type} (f : α → Poss β) :
    ∀ x : List α, (x.map f).any Poss.isPromise = x.any (fun a => (f a).isPromise) := by
  intro x
  induction x with
  | nil => rfl
  | cons a as ih => simp [List.any_cons, ih]

/-- `mapArray` with no pending mapper application returns the mapped array
immediately. -/
theorem mapArraySyncEq {α β : Type} (f : α → Poss β) (x : List α)
    (h : ∀ a ∈ x, (f a).isPromise = false) :
    mapArray f x = Poss.now (x.map (fun a => (f a).get)) := by
  have hany : (x.map f).any Poss.isPromise = false := by
    rw [anyMapIsPromise, List.any_eq_false]
    intro a ha
    simp [h a ha]
  simp [mapArray, hany, List.map_map, Function.comp]

/-- `mapArray` with a pending mapper application returns a promise of the
mapped array. -/
theorem mapArrayAsyncEq {α β : Type} (f : α → Poss β) (x : List α)
    (h : ∃ a ∈ x, (f a).isPromise = true) :
    mapArray f x = Poss.later (x.map (fun a => (f a).get)) := by
  obtain ⟨a0, ha0, hp0⟩ := h
  have hany : (x.map f).any Poss.isPromise = true := by
    rw [anyMapIsPromise, List.any_eq_true]
    exact ⟨a0, ha0, hp0⟩
  simp [mapArray, hany, List.map_map, Function.comp]

/-- `mapSet` with no pending mapper application returns its set
immediately. -/
theorem mapSetSyncEq {α β : Type} [DecidableEq β] (f : α → Poss β) (x : List α)
    (h : x.filter (fun a => (f a).isPromise) = []) :
    mapSet f x = Poss.now
      (((x.filter (fun a => !(f a).isPromise)).map (fun a => (f a).get)).foldl setAdd []) := by
  unfold mapSet
  rw [mapSetFoldChar, h]
  simp

/-- `mapSet` with a pending mapper application returns a promise of the
finished set: synchronous additions first, pending additions after. -/
theorem mapSetAsyncEq {α β : Type} [DecidableEq β] (f : α → Poss β) (x : List α)
    (h : x.filter (fun a => (f a).isPromise) ≠ []) :
    mapSet f x = Poss.later
      (((x.filter (fun a => (f a).isPromise)).map (fun a => (f a).get)).foldl setAdd
        (((x.filter (fun a => !(f a).isPromise)).map (fun a => (f a).get)).foldl setAdd [])) := by
  unfold mapSet
  rw [mapSetFoldChar]
  have hne : (((x.filter (fun a => (f a).isPromise)).map (fun a => (f a).get))).isEmpty
      = false := by
    rcases hx : x.filter (fun a => (f a).isPromise) with _ | ⟨c, cs⟩
    · exact absurd hx h
    · simp [hx]
  simp [hne]

/-- `mapObject` with no pending mapper application returns its object
immediately. -/
theorem mapObjectSyncEq {α β : Type} (f : α → Poss β) (o : List (Nat × α))
    (h : o.filter (fun kv => (f kv.2).isPromise) = []) :
    mapObject f o = Poss.now
      ((o.filter (fun kv => !(f kv.2).isPromise)).map (fun kv => (kv.1, (f kv.2).get))) := by
  unfold mapObject
  rw [mapObjectFoldChar, h]
  simp

/-- `mapObject` with a pending mapper application returns a promise of the
finished object: synchronously assigned entries first, pending assignments
after. -/
theorem mapObjectAsyncEq {α β : Type} (f : α → Poss β) (o : List (Nat × α))
    (h : o.filter (fun kv => (f kv.2).isPromise) ≠ []) :
    mapObject f o = Poss.later
      ((o.filter (fun kv => !(f kv.2).isPromise)).map (fun kv => (kv.1, (f kv.2).get))
        ++ (o.filter (fun kv => (f kv.2).isPromise)).map (fun kv => (kv.1, (f kv.2).get))) := by
  unfold mapObject
  rw [mapObjectFoldChar]
  have hne : ((o.filter (fun kv => (f kv.2).isPromise)).map
      (fun kv => (kv.1, (f kv.2).get))).isEmpty = false := by
    rcases hx : o.filter (fun kv => (f kv.2).isPromise) with _ | ⟨c, cs⟩
    · exact absurd hx h
    · simp [hx]
  simp [hne]

/-- C2: for the eager containers (array, Set, plain object), if every mapper
application is synchronous then `map(f)(c)` is not a pending result; if at
least one application returns a pending result then `map(f)(c)` is a pending
result of the fully resolved same-shape container: the array resolves to the
positional map, the set resolves to the set of all resolved mapped values,
and the object resolves to an object giving every key its resolved mapped
value. -/
theorem mapDualityTransparency {α β : Type} [DecidableEq β] (f : α → Poss β)
    (x : List α) (o : List (Nat × α)) (ho : (o.map Prod.fst).Nodup) :
    ((∀ a ∈ x, (f a).isPromise = false) →
      (mapArray f x).isPromise = false ∧ (mapSet f x).isPromise = false)
    ∧ ((∀ kv ∈ o, (f kv.2).isPromise = false) → (mapObject f o).isPromise = false)
    ∧ ((∃ a ∈ x, (f a).isPromise = true) →
      (mapArray f x).isPromise = true
      ∧ (mapArray f x).get = x.map (fun a => (f a).get)
      ∧ (mapSet f x).isPromise = true
      ∧ (∀ a ∈ x, (f a).get ∈ (mapSet f x).get)
      ∧ (∀ b ∈ (mapSet f x).get, ∃ a ∈ x, (f a).get = b))
    ∧ ((∃ kv ∈ o, (f kv.2).isPromise = true) →
      (mapObject f o).isPromise = true
      ∧ ∀ kv ∈ o, flookup (mapObject f o).get kv.1 = some ((f kv.2).get)) := by
  refine ⟨fun hsync => ⟨?_, ?_⟩, fun hsync => ?_, fun hasync => ?_, fun hasync => ?_⟩
  · rw [mapArraySyncEq f x hsync]
    rfl
  · rw [mapSetSyncEq f x (List.filter_eq_nil_iff.mpr (fun a ha => by simp [hsync a ha]))]
    rfl
  · rw [mapObjectSyncEq f o (List.filter_eq_nil_iff.mpr (fun kv hkv => by simp [hsync kv hkv]))]
    rfl
  · obtain ⟨a0, ha0, hp0⟩ := hasync
    have hfil : x.filter (fun a => (f a).isPromise) ≠ [] := by
      intro hnil
      have := List.filter_eq_nil_iff.mp hnil a0 ha0
      simp [hp0] at this
    rw [mapArrayAsyncEq f x ⟨a0, ha0, hp0⟩, mapSetAsyncEq f x hfil]
    refine ⟨rfl, rfl, rfl, fun a ha => ?_, fun b hb => ?_⟩
    · show (f a).get ∈ Poss.get (Poss.later _)
      rw [Poss.get, memFoldlSetAdd, memFoldlSetAdd]
      by_cases hpa : (f a).isPromise = true
      · right
        exact List.mem_map.mpr ⟨a, List.mem_filter.mpr ⟨ha, hpa⟩, rfl⟩
      · left
        right
        exact List.mem_map.mpr
          ⟨a, List.mem_filter.mpr ⟨ha, by simp at hpa; simp [hpa]⟩, rfl⟩
    · rw [Poss.get, memFoldlSetAdd, memFoldlSetAdd] at hb
      rcases hb with (hb | hb) | hb
      · simp at hb
      · obtain ⟨a, haf, hav⟩ := List.mem_map.mp hb
        exact ⟨a, (List.mem_filter.mp haf).1, hav⟩
      · obtain ⟨a, haf, hav⟩ := List.mem_map.mp hb
        exact ⟨a, (List.mem_filter.mp haf).1, hav⟩
  · obtain ⟨kv0, hkv0, hp0⟩ := hasync
    have hfil : o.filter (fun kv => (f kv.2).isPromise) ≠ [] := by
      intro hnil
      have := List.filter_eq_nil_iff.mp hnil kv0 hkv0
      simp [hp0] at this
    rw [mapObjectAsyncEq f o hfil]
    refine ⟨rfl, fun kv hkv => ?_⟩
    have hkeysperm :
        (((o.filter (fun kv2 => !(f kv2.2).isPromise)).map (fun kv2 => (kv2.1, (f kv2.2).get))
          ++ (o.filter (fun kv2 => (f kv2.2).isPromise)).map
            (fun kv2 => (kv2.1, (f kv2.2).get))).map Prod.fst).Perm (o.map Prod.fst) := by
      rw [List.map_append, List.map_map, List.map_map]
      have hperm := List.filter_append_perm (fun kv2 => !(f kv2.2).isPromise) o
      have hperm2 := hperm.map (Prod.fst : Nat × α → Nat)
      rw [List.map_append] at hperm2
      have heq : (o.filter (fun kv2 => !!(f kv2.2).isPromise))
          = o.filter (fun kv2 => (f kv2.2).isPromise) := by
        simp
      rw [heq] at hperm2
      simpa [Function.comp] using hperm2
    have hnd2 : ((((o.filter (fun kv2 => !(f kv2.2).isPromise)).map
          (fun kv2 => (kv2.1, (f kv2.2).get))
        ++ (o.filter (fun kv2 => (f kv2.2).isPromise)).map
          (fun kv2 => (kv2.1, (f kv2.2).get)))).map Prod.fst).Nodup :=
      hkeysperm.nodup_iff.mpr ho
    have hmem : (kv.1, (f kv.2).get) ∈
        (o.filter (fun kv2 => !(f kv2.2).isPromise)).map (fun kv2 => (kv2.1, (f kv2.2).get))
        ++ (o.filter (fun kv2 => (f kv2.2).isPromise)).map
          (fun kv2 => (kv2.1, (f kv2.2).get)) := by
      by_cases hpkv : (f kv.2).isPromise = true
      · exact List.mem_append_right _
          (List.mem_map.mpr ⟨kv, List.mem_filter.mpr ⟨hkv, by simp [hpkv]⟩, rfl⟩)
      · exact List.mem_append_left _
          (List.mem_map.mpr ⟨kv, List.mem_filter.mpr ⟨hkv, by simp at hpkv; simp [hpkv]⟩, rfl⟩)
    exact flookupMemNodup _ kv.1 ((f kv.2).get) hnd2 hmem

/-- Witness for `mapDualityTransparency`: both the all-synchronous direction
(on `[0, 2]`) and the one-pending direction (on `[0, 1, 2]`, pending at
`1`), and the pending-object direction. -/
theorem mapDualityTransparencyWitness :
    (mapArray dualityWitnessMapper [0, 2]).isPromise = false
    ∧ (mapArray dualityWitnessMapper [0, 1, 2]).isPromise = true
    ∧ (mapObject dualityWitnessMapper [(3, 0), (7, 1)]).isPromise = true := by
  refine ⟨?_, ?_, ?_⟩
  · exact ((mapDualityTransparency dualityWitnessMapper [0, 2] [(3, 0), (7, 1)]
      (by decide)).1 (by decide)).1
  · exact ((mapDualityTransparency dualityWitnessMapper [0, 1, 2] [(3, 0), (7, 1)]
      (by decide)).2.2.1 (by decide)).1
  · exact ((mapDualityTransparency dualityWitnessMapper [0, 1, 2] [(3, 0), (7, 1)]
      (by decide)).2.2.2 (by decide)).1


/-- `pickMin` returns nothing exactly on the empty in-flight set. -/
theorem pickMinNoneIffNil {β : Type} :
    ∀ (l : List (Nat × Nat × β)), pickMin l = none ↔ l = [] := by
  intro l
  cases l with
  | nil => simp [pickMin]
  | cons e es =>
    simp only [pickMin]
    cases hes : pickMin es with
    | none => simp
    | some pr =>
      obtain ⟨m, r⟩ := pr
      constructor
      · intro h
        change (if poolKeyLe (e.2.1, e.1) (m.2.1, m.1) = true then some (e, es)
          else some (m, e :: r)) = none at h
        split at h <;> exact Option.noConfusion h
      · intro h
        exact List.noConfusion h

/-- `pickMin` removes exactly the selected entry: the original in-flight set
is a permutation of the selected entry consed on the remainder. -/
theorem pickMinPerm {β : Type} :
    ∀ (l : List (Nat × Nat × β)) (m : Nat × Nat × β) (rest : List (Nat × Nat × β)),
    pickMin l = some (m, rest) → l.Perm (m :: rest) := by
  intro l
  induction l with
  | nil => intro m rest h; simp [pickMin] at h
  | cons e es ih =>
    intro m rest h
    simp only [pickMin] at h
    cases hes : pickMin es with
    | none =>
      rw [hes] at h
      have hnil : es = [] := (pickMinNoneIffNil es).mp hes
      have h2 := Option.some.inj h
      have hm : e = m := congrArg Prod.fst h2
      have hr : ([] : List (Nat × Nat × β)) = rest := congrArg Prod.snd h2
      subst hnil
      subst hm
      subst hr
      exact List.Perm.refl _
    | some pr =>
      obtain ⟨m2, r2⟩ := pr
      rw [hes] at h
      change (if poolKeyLe (e.2.1, e.1) (m2.2.1, m2.1) = true then some (e, es)
        else some (m2, e :: r2)) = some (m, rest) at h
      by_cases hk : poolKeyLe (e.2.1, e.1) (m2.2.1, m2.1) = true
      · rw [if_pos hk] at h
        have h2 := Option.some.inj h
        have hm : e = m := congrArg Prod.fst h2
        have hr : es = rest := congrArg Prod.snd h2
        subst hm
        subst hr
        exact List.Perm.refl _
      · rw [if_neg hk] at h
        have h2 := Option.some.inj h
        have hm : m2 = m := congrArg Prod.fst h2
        have hr : e :: r2 = rest := congrArg Prod.snd h2
        subst hm
        subst hr
        exact ((ih m2 r2 hes).cons e).trans (List.Perm.swap m2 e r2)

/-- The shape of `race` on an empty in-flight set. -/
theorem raceEqNone {β : Type} (st : PoolState β) (h : pickMin st.inflight = none) :
    race st = st := by
  unfold race
  rw [h]

/-- The shape of `race` when an in-flight entry is selected. -/
theorem raceEqSome {β : Type} (st : PoolState β) (m : Nat × Nat × β)
    (rest : List (Nat × Nat × β)) (h : pickMin st.inflight = some (m, rest)) :
    race st = ⟨rest, st.finished ++ [(m.1, m.2.2)], st.sizes, st.removals ++ [m.1]⟩ := by
  unfold race
  rw [h]

/-- `race` does not touch the record of scheduling-decision sizes. -/
theorem raceSizes {β : Type} (st : PoolState β) : (race st).sizes = st.sizes := by
  cases h : pickMin st.inflight with
  | none => rw [raceEqNone st h]
  | some pr => rw [raceEqSome st pr.1 pr.2 (by rw [h])]

/-- `race` preserves the combined multiset of in-flight and finished slots. -/
theorem raceCombinedPerm {β : Type} (st : PoolState β) :
    ((race st).inflight.map (fun e => e.1) ++ (race st).finished.map Prod.fst).Perm
      (st.inflight.map (fun e => e.1) ++ st.finished.map Prod.fst) := by
  cases h : pickMin st.inflight with
  | none => rw [raceEqNone st h]
  | some pr =>
    obtain ⟨m, rest⟩ := pr
    rw [raceEqSome st m rest h]
    have hmap := (pickMinPerm st.inflight m rest h).map (fun e : Nat × Nat × β => e.1)
    rw [List.map_cons] at hmap
    have h1 : rest.map (fun e => e.1) ++ (st.finished ++ [(m.1, m.2.2)]).map Prod.fst
        = (rest.map (fun e => e.1) ++ st.finished.map Prod.fst) ++ [m.1] := by
      rw [List.map_append, List.append_assoc]
      rfl
    rw [h1]
    exact (List.perm_append_singleton _ _).trans
      (List.Perm.append_right (st.finished.map Prod.fst) hmap.symm)

/-- `race` preserves the combined multiset of removed and in-flight slots
(moving the resolved entry from in-flight to removed). -/
theorem raceRemovalsPerm {β : Type} (st : PoolState β) :
    ((race st).removals ++ (race st).inflight.map (fun e => e.1)).Perm
      (st.removals ++ st.inflight.map (fun e => e.1)) := by
  cases h : pickMin st.inflight with
  | none => rw [raceEqNone st h]
  | some pr =>
    obtain ⟨m, rest⟩ := pr
    rw [raceEqSome st m rest h]
    have hmap := (pickMinPerm st.inflight m rest h).map (fun e : Nat × Nat × β => e.1)
    rw [List.map_cons] at hmap
    rw [List.append_assoc]
    exact List.Perm.append_left st.removals hmap.symm

/-- Every in-flight entry after `race` was in flight before. -/
theorem raceInflightSubset {β : Type} (st : PoolState β) :
    ∀ e ∈ (race st).inflight, e ∈ st.inflight := by
  cases h : pickMin st.inflight with
  | none =>
    rw [raceEqNone st h]
    exact fun e he => he
  | some pr =>
    obtain ⟨m, rest⟩ := pr
    rw [raceEqSome st m rest h]
    intro e he
    exact (pickMinPerm st.inflight m rest h).symm.subset (List.mem_cons_of_mem m he)

/-- Every finished record after `race` was finished before or is the resolved
value of an entry that was in flight. -/
theorem raceFinished {β : Type} (st : PoolState β) :
    ∀ q ∈ (race st).finished,
      q ∈ st.finished ∨ ∃ e ∈ st.inflight, q = (e.1, e.2.2) := by
  cases h : pickMin st.inflight with
  | none =>
    rw [raceEqNone st h]
    exact fun q hq => Or.inl hq
  | some pr =>
    obtain ⟨m, rest⟩ := pr
    rw [raceEqSome st m rest h]
    intro q hq
    rcases List.mem_append.mp hq with hq | hq
    · exact Or.inl hq
    · right
      refine ⟨m, (pickMinPerm st.inflight m rest h).symm.subset (List.mem_cons_self m rest), ?_⟩
      simpa using hq

/-- `race` on a non-empty in-flight set removes exactly one entry. -/
theorem raceLength {β : Type} (st : PoolState β) (h : st.inflight ≠ []) :
    (race st).inflight.length + 1 = st.inflight.length := by
  cases hp : pickMin st.inflight with
  | none => exact absurd ((pickMinNoneIffNil st.inflight).mp hp) h
  | some pr =>
    obtain ⟨m, rest⟩ := pr
    rw [raceEqSome st m rest hp]
    have := (pickMinPerm st.inflight m rest hp).length_eq
    simpa using this.symm

/-- `poolStep` records exactly one scheduling-decision size: the in-flight
count at the top of the iteration. -/
theorem poolStepSizes {β : Type} (n : Nat) (st : PoolState β) :
    (poolStep n st).sizes = st.sizes ++ [st.inflight.length] := by
  simp only [poolStep]
  split
  · exact raceSizes _
  · rfl

/-- `poolStep` preserves the combined multiset of in-flight and finished
slots. -/
theorem poolStepCombinedPerm {β : Type} (n : Nat) (st : PoolState β) :
    ((poolStep n st).inflight.map (fun e => e.1) ++ (poolStep n st).finished.map Prod.fst).Perm
      (st.inflight.map (fun e => e.1) ++ st.finished.map Prod.fst) := by
  simp only [poolStep]
  split
  · exact raceCombinedPerm _
  · exact List.Perm.refl _

/-- `poolStep` preserves the combined multiset of removed and in-flight
slots. -/
theorem poolStepRemovalsPerm {β : Type} (n : Nat) (st : PoolState β) :
    ((poolStep n st).removals ++ (poolStep n st).inflight.map (fun e => e.1)).Perm
      (st.removals ++ st.inflight.map (fun e => e.1)) := by
  simp only [poolStep]
  split
  · exact raceRemovalsPerm _
  · exact List.Perm.refl _

/-- Every in-flight entry after `poolStep` was in flight before. -/
theorem poolStepInflightSubset {β : Type} (n : Nat) (st : PoolState β) :
    ∀ e ∈ (poolStep n st).inflight, e ∈ st.inflight := by
  simp only [poolStep]
  split
  · exact raceInflightSubset _
  · exact fun e he => he

/-- Every finished record after `poolStep` was finished before or is the
resolved value of an entry that was in flight. -/
theorem poolStepFinished {β : Type} (n : Nat) (st : PoolState β) :
    ∀ q ∈ (poolStep n st).finished,
      q ∈ st.finished ∨ ∃ e ∈ st.inflight, q = (e.1, e.2.2) := by
  simp only [poolStep]
  split
  · exact raceFinished _
  · exact fun q hq => Or.inl hq

/-- After the scheduling decision, the in-flight set has strictly fewer than
`n` entries: if it was full (exactly `n`, never more), the race removed one;
this is what admits the next mapper application without exceeding the
limit. -/
theorem poolStepLengthLt {β : Type} (n : Nat) (st : PoolState β) (hn : 1 ≤ n)
    (hlen : st.inflight.length ≤ n) : (poolStep n st).inflight.length < n := by
  simp only [poolStep]
  split
  · rename_i hc
    change n ≤ st.inflight.length at hc
    have heq : st.inflight.length = n := Nat.le_antisymm hlen hc
    have hne : st.inflight ≠ [] := by
      intro hnil
      rw [hnil] at heq
      simp at heq
      omega
    have hr := raceLength (⟨st.inflight, st.finished,
      st.sizes ++ [st.inflight.length], st.removals⟩ : PoolState β) hne
    change (race (⟨st.inflight, st.finished,
      st.sizes ++ [st.inflight.length], st.removals⟩ : PoolState β)).inflight.length + 1
      = st.inflight.length at hr
    omega
  · rename_i hc
    change ¬(n ≤ st.inflight.length) at hc
    show st.inflight.length < n
    omega

/-- `asyncIdsFrom` over a cons whose head maps synchronously. -/
theorem asyncIdsFromConsSync {α β : Type} (f : α → PoolApp β) (i : Nat) (a : α)
    (as : List α) (h : (f a).isAsync = false) :
    asyncIdsFrom f i (a :: as) = asyncIdsFrom f (i + 1) as := by
  simp [asyncIdsFrom, List.enumFrom, List.filter_cons, h]

/-- `asyncIdsFrom` over a cons whose head maps asynchronously. -/
theorem asyncIdsFromConsAsync {α β : Type} (f : α → PoolApp β) (i : Nat) (a : α)
    (as : List α) (h : (f a).isAsync = true) :
    asyncIdsFrom f i (a :: as) = i :: asyncIdsFrom f (i + 1) as := by
  simp [asyncIdsFrom, List.enumFrom, List.filter_cons, h]

/-- Invariant chain of the `mapPoolArray` loop: starting from a state whose
in-flight set respects the bound, (1) the bound still holds at the end, (2)
every recorded scheduling-decision size is at most `n`, (3) the in-flight and
finished slots together are exactly the previously known slots plus the newly
processed positions, (4) the removed and still-in-flight slots together are
exactly the previously known ones plus the asynchronous positions just
processed (each removed exactly once), and (5) every in-flight or finished
record carries the value of the mapper application at its own slot. -/
theorem poolGoSpec {α β : Type} (n : Nat) (f : α → PoolApp β) (x : List α) (hn : 1 ≤ n) :
    ∀ (as : List α) (i : Nat) (st : PoolState β),
    x.drop i = as →
    st.inflight.length ≤ n →
    (poolGo n f as i st).inflight.length ≤ n
    ∧ ((∀ s ∈ st.sizes, s ≤ n) → ∀ s ∈ (poolGo n f as i st).sizes, s ≤ n)
    ∧ ((poolGo n f as i st).inflight.map (fun e => e.1)
        ++ (poolGo n f as i st).finished.map Prod.fst).Perm
      ((st.inflight.map (fun e => e.1) ++ st.finished.map Prod.fst) ++ List.range' i as.length)
    ∧ ((poolGo n f as i st).removals
        ++ (poolGo n f as i st).inflight.map (fun e => e.1)).Perm
      ((st.removals ++ st.inflight.map (fun e => e.1)) ++ asyncIdsFrom f i as)
    ∧ ((∀ e ∈ st.inflight, ∃ a, x[e.1]? = some a ∧ (f a).val = e.2.2) →
       (∀ q ∈ st.finished, ∃ a, x[q.1]? = some a ∧ (f a).val = q.2) →
       (∀ e ∈ (poolGo n f as i st).inflight, ∃ a, x[e.1]? = some a ∧ (f a).val = e.2.2)
       ∧ (∀ q ∈ (poolGo n f as i st).finished, ∃ a, x[q.1]? = some a ∧ (f a).val = q.2)) := by
  intro as
  induction as with
  | nil =>
    intro i st hdrop hlen
    refine ⟨hlen, fun hs => hs, ?_, ?_, fun h1 h2 => ⟨h1, h2⟩⟩
    · simp only [poolGo, List.length_nil, List.range'_zero, List.append_nil]
      exact List.Perm.refl _
    · have haf : asyncIdsFrom f i [] = [] := rfl
      simp only [poolGo, haf, List.append_nil]
      exact List.Perm.refl _
  | cons a as ih =>
    intro i st hdrop hlen
    have hgeti : x[i]? = some a := by
      have h0 := List.getElem?_drop x i 0
      rw [hdrop] at h0
      simpa using h0.symm
    have hdrop2 : x.drop (i + 1) = as := by
      have h0 := List.tail_drop x i
      rw [hdrop] at h0
      simpa using h0.symm
    have hlt := poolStepLengthLt n st hn hlen
    have hsz2 := poolStepSizes n st
    have hcomb2 := poolStepCombinedPerm n st
    have hrem2 := poolStepRemovalsPerm n st
    have hinf2 := poolStepInflightSubset n st
    have hfin2 := poolStepFinished n st
    have hszbound : (∀ s ∈ st.sizes, s ≤ n) → ∀ s ∈ (poolStep n st).sizes, s ≤ n := by
      intro hs
      rw [hsz2]
      intro s hsmem
      rcases List.mem_append.mp hsmem with h | h
      · exact hs s h
      · exact (List.mem_singleton.mp h) ▸ hlen
    cases hfa : f a with
    | sync b =>
      have hasync : (f a).isAsync = false := by rw [hfa]; rfl
      obtain ⟨ihlen, ihsz, ihcomb, ihrem, ihent⟩ :=
        ih (i + 1) ⟨(poolStep n st).inflight, (poolStep n st).finished ++ [(i, b)],
          (poolStep n st).sizes, (poolStep n st).removals⟩ hdrop2 (Nat.le_of_lt hlt)
      dsimp only at ihlen ihsz ihcomb ihrem ihent
      have hunfold : poolGo n f (a :: as) i st = poolGo n f as (i + 1)
          ⟨(poolStep n st).inflight, (poolStep n st).finished ++ [(i, b)],
           (poolStep n st).sizes, (poolStep n st).removals⟩ := by
        simp only [poolGo, hfa]
      rw [hunfold]
      refine ⟨ihlen, fun hs => ihsz (hszbound hs), ?_, ?_, ?_⟩
      · refine ihcomb.trans ?_
        simp only [List.length_cons]
        rw [List.range'_succ]
        have hmapf : ((poolStep n st).finished ++ [(i, b)]).map Prod.fst
            = (poolStep n st).finished.map Prod.fst ++ [i] := by simp
        rw [hmapf, ← List.append_assoc, List.append_assoc _ [i] (List.range' (i + 1) as.length)]
        exact List.Perm.append_right _ hcomb2
      · refine ihrem.trans ?_
        rw [asyncIdsFromConsSync f i a as hasync]
        exact List.Perm.append_right _ hrem2
      · intro h1 h2
        apply ihent
        · intro e he
          exact h1 e (hinf2 e he)
        · intro q hq
          rcases List.mem_append.mp hq with hq | hq
          · rcases hfin2 q hq with hq2 | ⟨e, he, hqe⟩
            · exact h2 q hq2
            · obtain ⟨a2, hga, hva⟩ := h1 e he
              rw [hqe]
              exact ⟨a2, hga, hva⟩
          · rw [List.mem_singleton.mp hq]
            exact ⟨a, hgeti, by rw [hfa]; rfl⟩
    | async b p =>
      have hasync : (f a).isAsync = true := by rw [hfa]; rfl
      obtain ⟨ihlen, ihsz, ihcomb, ihrem, ihent⟩ :=
        ih (i + 1) ⟨(poolStep n st).inflight ++ [(i, p, b)], (poolStep n st).finished,
          (poolStep n st).sizes, (poolStep n st).removals⟩ hdrop2 (by
            simp only [List.length_append, List.length_cons, List.length_nil]
            omega)
      dsimp only at ihlen ihsz ihcomb ihrem ihent
      have hunfold : poolGo n f (a :: as) i st = poolGo n f as (i + 1)
          ⟨(poolStep n st).inflight ++ [(i, p, b)], (poolStep n st).finished,
           (poolStep n st).sizes, (poolStep n st).removals⟩ := by
        simp only [poolGo, hfa]
      rw [hunfold]
      refine ⟨ihlen, fun hs => ihsz (hszbound hs), ?_, ?_, ?_⟩
      · refine ihcomb.trans ?_
        simp only [List.length_cons]
        rw [List.range'_succ]
        have hmapi : ((poolStep n st).inflight ++ [(i, p, b)]).map (fun e => e.1)
            = (poolStep n st).inflight.map (fun e => e.1) ++ [i] := by simp
        rw [hmapi]
        have hswap : ((poolStep n st).inflight.map (fun e => e.1) ++ [i])
            ++ (poolStep n st).finished.map Prod.fst
            |>.Perm (((poolStep n st).inflight.map (fun e => e.1)
              ++ (poolStep n st).finished.map Prod.fst) ++ [i]) := by
          rw [List.append_assoc, List.append_assoc]
          exact List.Perm.append_left _ List.perm_append_comm
        refine (List.Perm.append_right _ hswap).trans ?_
        rw [List.append_assoc]
        exact List.Perm.append_right _ hcomb2
      · refine ihrem.trans ?_
        rw [asyncIdsFromConsAsync f i a as hasync]
        have hmapi : ((poolStep n st).inflight ++ [(i, p, b)]).map (fun e => e.1)
            = (poolStep n st).inflight.map (fun e => e.1) ++ [i] := by simp
        rw [hmapi, ← List.append_assoc,
          List.append_assoc _ [i] (asyncIdsFrom f (i + 1) as)]
        exact List.Perm.append_right _ hrem2
      · intro h1 h2
        apply ihent
        · intro e he
          rcases List.mem_append.mp he with he | he
          · exact h1 e (hinf2 e he)
          · rw [List.mem_singleton.mp he]
            exact ⟨a, hgeti, by rw [hfa]; rfl⟩
        · intro q hq
          rcases hfin2 q hq with hq2 | ⟨e, he, hqe⟩
          · exact h2 q hq2
          · obtain ⟨a2, hga, hva⟩ := h1 e he
            rw [hqe]
            exact ⟨a2, hga, hva⟩

/-- Draining the remaining promises does not touch the record of
scheduling-decision sizes. -/
theorem drainNSizes {β : Type} :
    ∀ (k : Nat) (st : PoolState β), (drainN k st).sizes = st.sizes := by
  intro k
  induction k with
  | zero => intro st; rfl
  | succ k ih =>
    intro st
    simp only [drainN]
    rw [ih, raceSizes]

/-- Draining preserves the combined multiset of in-flight and finished
slots. -/
theorem drainNCombinedPerm {β : Type} :
    ∀ (k : Nat) (st : PoolState β),
    ((drainN k st).inflight.map (fun e => e.1) ++ (drainN k st).finished.map Prod.fst).Perm
      (st.inflight.map (fun e => e.1) ++ st.finished.map Prod.fst) := by
  intro k
  induction k with
  | zero => intro st; exact List.Perm.refl _
  | succ k ih =>
    intro st
    simp only [drainN]
    exact (ih (race st)).trans (raceCombinedPerm st)

/-- Draining preserves the combined multiset of removed and in-flight
slots. -/
theorem drainNRemovalsPerm {β : Type} :
    ∀ (k : Nat) (st : PoolState β),
    ((drainN k st).removals ++ (drainN k st).inflight.map (fun e => e.1)).Perm
      (st.removals ++ st.inflight.map (fun e => e.1)) := by
  intro k
  induction k with
  | zero => intro st; exact List.Perm.refl _
  | succ k ih =>
    intro st
    simp only [drainN]
    exact (ih (race st)).trans (raceRemovalsPerm st)

/-- Draining preserves the per-slot correctness of finished records. -/
theorem drainNEntries {α β : Type} (f : α → PoolApp β) (x : List α) :
    ∀ (k : Nat) (st : PoolState β),
    (∀ e ∈ st.inflight, ∃ a, x[e.1]? = some a ∧ (f a).val = e.2.2) →
    (∀ q ∈ st.finished, ∃ a, x[q.1]? = some a ∧ (f a).val = q.2) →
    ∀ q ∈ (drainN k st).finished, ∃ a, x[q.1]? = some a ∧ (f a).val = q.2 := by
  intro k
  induction k with
  | zero => intro st _ h2; exact h2
  | succ k ih =>
    intro st h1 h2
    simp only [drainN]
    apply ih (race st)
    · intro e he
      exact h1 e (raceInflightSubset st e he)
    · intro q hq
      rcases raceFinished st q hq with hq2 | ⟨e, he, hqe⟩
      · exact h2 q hq2
      · obtain ⟨a2, hga, hva⟩ := h1 e he
        rw [hqe]
        exact ⟨a2, hga, hva⟩

/-- Draining as many times as there are outstanding promises empties the
in-flight set. -/
theorem drainNEmpties {β : Type} :
    ∀ (k : Nat) (st : PoolState β), st.inflight.length ≤ k → (drainN k st).inflight = [] := by
  intro k
  induction k with
  | zero =>
    intro st h
    exact List.length_eq_zero.mp (Nat.le_zero.mp h)
  | succ k ih =>
    intro st h
    simp only [drainN]
    by_cases hemp : st.inflight = []
    · rw [raceEqNone st ((pickMinNoneIffNil st.inflight).mpr hemp)]
      apply ih
      rw [hemp]
      simp
    · have hr := raceLength st hemp
      apply ih
      omega

/-- C5: the resolved output array of `map.pool(n, f)` satisfies
`result[i] = f(input[i])` (as its eventually resolved value) at every index,
for every concurrency limit `n >= 1` and every completion order of the
pending mapper applications (the completion priorities inside `f` are
arbitrary). -/
theorem mapPoolPositional {α β : Type} (n : Nat) (f : α → PoolApp β) (x : List α)
    (hn : 1 ≤ n) : mapPoolArray n f x = x.map (fun a => some ((f a).val)) := by
  obtain ⟨hlen1, hsz1, hcomb1, hrem1, hent1⟩ :=
    poolGoSpec n f x hn x 0 initPoolState rfl (by simp [initPoolState])
  obtain ⟨hinfG, hfinG⟩ := hent1
    (by intro e he; simp [initPoolState] at he)
    (by intro q hq; simp [initPoolState] at hq)
  have hrunEq : mapPoolRun n f x
      = drainN (poolGo n f x 0 initPoolState).inflight.length (poolGo n f x 0 initPoolState) :=
    rfl
  have hempty : (mapPoolRun n f x).inflight = [] := by
    rw [hrunEq]
    exact drainNEmpties _ _ (Nat.le_refl _)
  have hfinGood : ∀ q ∈ (mapPoolRun n f x).finished,
      ∃ a, x[q.1]? = some a ∧ (f a).val = q.2 := by
    rw [hrunEq]
    exact drainNEntries f x _ _ hinfG hfinG
  have hcombRun : ((mapPoolRun n f x).inflight.map (fun e => e.1)
      ++ (mapPoolRun n f x).finished.map Prod.fst).Perm
      ((poolGo n f x 0 initPoolState).inflight.map (fun e => e.1)
        ++ (poolGo n f x 0 initPoolState).finished.map Prod.fst) := by
    rw [hrunEq]
    exact drainNCombinedPerm _ _
  simp only [initPoolState, List.map_nil, List.nil_append] at hcomb1
  have hfinPerm : ((mapPoolRun n f x).finished.map Prod.fst).Perm (List.range x.length) := by
    have hfinal := hcombRun.trans hcomb1
    rw [hempty] at hfinal
    rw [List.range_eq_range']
    simpa using hfinal
  have hnodup : ((mapPoolRun n f x).finished.map Prod.fst).Nodup :=
    hfinPerm.nodup_iff.mpr (List.nodup_range _)
  apply List.ext_getElem
  · simp [mapPoolArray]
  · intro i h1 h2
    have hi : i < x.length := by simpa using h2
    simp only [mapPoolArray, List.getElem_map, List.getElem_range]
    have himem : i ∈ (mapPoolRun n f x).finished.map Prod.fst :=
      hfinPerm.mem_iff.mpr (List.mem_range.mpr hi)
    obtain ⟨q, hqmem, hq1⟩ := List.mem_map.mp himem
    obtain ⟨a2, hga, hva⟩ := hfinGood q hqmem
    have hxa : x[i]? = some a2 := by rw [← hq1]; exact hga
    have hxi : x[i]? = some (x[i]) := List.getElem?_eq_getElem hi
    have ha2 : a2 = x[i] := Option.some.inj (hxa.symm.trans hxi)
    have hqeq : q = (i, q.2) := Prod.ext hq1 rfl
    have hlook : flookup (mapPoolRun n f x).finished i = some q.2 :=
      flookupMemNodup _ i q.2 hnodup (hqeq ▸ hqmem)
    rw [hlook, ← hva, ha2]

/-- Witness for `mapPoolPositional` at limit 2 on `[0, 1, 2, 3, 4]` with a
mapper whose pending applications complete in reverse submission order. -/
theorem mapPoolPositionalWitness :
    mapPoolArray 2 poolWitnessMapper [0, 1, 2, 3, 4]
      = [0, 1, 2, 3, 4].map (fun a => some ((poolWitnessMapper a).val)) :=
  mapPoolPositional 2 poolWitnessMapper [0, 1, 2, 3, 4] (by decide)

/-- C4: for every run of the pool mapper with limit `n >= 1`, the in-flight
set holds at most `n` entries at the start of every scheduling decision
(suspending on the race when `n` are outstanding before applying the mapper
again), and each pending entry is removed from the set exactly once, by its
own resolution continuation: the removal record is a permutation of the
asynchronous input positions. -/
theorem mapPoolConcurrencyBound {α β : Type} (n : Nat) (f : α → PoolApp β) (x : List α)
    (hn : 1 ≤ n) :
    (∀ s ∈ (mapPoolRun n f x).sizes, s ≤ n)
    ∧ (mapPoolRun n f x).removals.Perm (asyncIds f x) := by
  obtain ⟨hlen1, hsz1, hcomb1, hrem1, hent1⟩ :=
    poolGoSpec n f x hn x 0 initPoolState rfl (by simp [initPoolState])
  have hrunEq : mapPoolRun n f x
      = drainN (poolGo n f x 0 initPoolState).inflight.length (poolGo n f x 0 initPoolState) :=
    rfl
  have hempty : (mapPoolRun n f x).inflight = [] := by
    rw [hrunEq]
    exact drainNEmpties _ _ (Nat.le_refl _)
  constructor
  · have hszRun : (mapPoolRun n f x).sizes = (poolGo n f x 0 initPoolState).sizes := by
      rw [hrunEq]
      exact drainNSizes _ _
    rw [hszRun]
    exact hsz1 (by intro s hs; simp [initPoolState] at hs)
  · have hremRun : ((mapPoolRun n f x).removals
        ++ (mapPoolRun n f x).inflight.map (fun e => e.1)).Perm
        ((poolGo n f x 0 initPoolState).removals
          ++ (poolGo n f x 0 initPoolState).inflight.map (fun e => e.1)) := by
      rw [hrunEq]
      exact drainNRemovalsPerm _ _
    simp only [initPoolState, List.map_nil, List.nil_append] at hrem1
    have hAI : asyncIds f x = asyncIdsFrom f 0 x := rfl
    have hstart : (mapPoolRun n f x).removals
        = (mapPoolRun n f x).removals
          ++ (mapPoolRun n f x).inflight.map (fun e => e.1) := by
      rw [hempty]
      simp
    rw [hAI, hstart]
    exact hremRun.trans (by simpa using hrem1)

/-- Witness for `mapPoolConcurrencyBound` at limit 2 on `[0, 1, 2, 3, 4]`. -/
theorem mapPoolConcurrencyBoundWitness :
    (∀ s ∈ (mapPoolRun 2 poolWitnessMapper [0, 1, 2, 3, 4]).sizes, s ≤ 2)
    ∧ (mapPoolRun 2 poolWitnessMapper [0, 1, 2, 3, 4]).removals.Perm
      (asyncIds poolWitnessMapper [0, 1, 2, 3, 4]) :=
  mapPoolConcurrencyBound 2 poolWitnessMapper [0, 1, 2, 3, 4] (by decide)
